import Mathlib

/-
Formal model of the oracle-node repository.

The repository has two source files:
  aggregator-server/src/main.rs — the aggregation server: a submission log of
    price entries, a liveness map of reporter nodes, a median-based consensus
    over entries fresh within 60 seconds, capacity-based trimming of the log
    to 100 entries, and eviction of reporters silent for 120 seconds.
  src/binance.rs — the ingestion client: a retry loop with exponential
    backoff (at most 3 attempts, waits of 1s and 2s between them), price
    validation, and conversion of a close price to integer cents.

Modelling conventions:
  - f64 prices are idealised as rationals wherever the code only does exact
    arithmetic and total comparisons; a dedicated F64 type (NaN, infinities,
    finite rationals) models the IEEE comparison semantics where partiality
    matters (validate_price, and the unwrap of partial_cmp in the sort).
  - u64 arithmetic is modelled on Nat; the expression current_time - x on
    u64 values is modelled by subU64 (wrap-around, the release-build
    behaviour) and checkedSubU64 (the debug-build behaviour: a panic, here
    none, on underflow).
  - the HashMap of active nodes is modelled as an association list; retain
    becomes filter, insert replaces the value of an existing key.
  - The Rust slice sort with an ascending comparator is modelled by the Mathlib
    insertionSort: on a totally ordered type every sort produces the same
    ascending list, so the choice of algorithm is unobservable.
-/

/-- Wrapping u64 subtraction a - b, the release-build meaning of the
subtraction in the freshness filter and the liveness sweep. -/
def subU64 (a b : Nat) : Nat := (a + (2 ^ 64 - b % 2 ^ 64)) % 2 ^ 64

/-- Checked u64 subtraction: none models the debug-build overflow panic. -/
def checkedSubU64 (a b : Nat) : Option Nat :=
  if b ≤ a then some (a - b) else none

/-- One stored price entry (struct PriceEntry in main.rs). -/
structure PriceEntry where
  price : ℚ
  timestamp : Nat
  source : String
  node_id : String
  deriving Repr, DecidableEq

/-- Shared server state (struct AggregatorState in main.rs): the submission
log and the node_id → last_seen map. -/
structure AggregatorState where
  prices : List PriceEntry
  active_nodes : List (String × Nat)
  deriving Repr, DecidableEq

/-- AggregatorServiceImpl::calculate_median_price: filter the log to entries
with current_time - timestamp < 60, return none if nothing is left, else
sort the prices ascending and take the middle element (odd count) or the
mean of the two middle elements (even count). -/
def calculate_median_price (prices : List PriceEntry) (current_time : Nat) : Option ℚ :=
  let recent_prices := (prices.filter (fun p => subU64 current_time p.timestamp < 60)).map
    (fun p => p.price)
  if recent_prices.isEmpty then none
  else
    let sorted_prices := recent_prices.insertionSort (fun a b => a ≤ b)
    let len := sorted_prices.length
    if len % 2 = 0 then
      some ((sorted_prices.getD (len / 2 - 1) 0 + sorted_prices.getD (len / 2) 0) / 2)
    else
      some (sorted_prices.getD (len / 2) 0)

/-- AggregatorServiceImpl::cleanup_inactive_nodes: retain exactly the nodes
with current_time - last_seen < 120. -/
def cleanup_inactive_nodes (active_nodes : List (String × Nat)) (current_time : Nat) :
    List (String × Nat) :=
  active_nodes.filter (fun kv => subU64 current_time kv.2 < 120)

/-- HashMap::insert on the association-list model: replace the value of an
existing key, otherwise append the new binding. -/
def insertNode (m : List (String × Nat)) (k : String) (v : Nat) : List (String × Nat) :=
  if m.any (fun kv => kv.1 == k) then
    m.map (fun kv => if kv.1 == k then (k, v) else kv)
  else m ++ [(k, v)]

/-- The push-then-drain step of submit_price on the log: append the entry and,
if the length exceeds 100, drain the oldest entries down to 100. -/
def pushTrim (log : List PriceEntry) (e : PriceEntry) : List PriceEntry :=
  let l1 := log ++ [e]
  if l1.length > 100 then l1.drop (l1.length - 100) else l1

/-- An inbound PriceRequest (proto message consumed by submit_price). -/
structure PriceRequest where
  price : ℚ
  timestamp : Nat
  source : String
  node_id : String
  deriving Repr, DecidableEq

/-- The PriceResponse proto message returned by submit_price. -/
structure PriceResponse where
  success : Bool
  message : String
  aggregated_price : Option ℚ
  timestamp : Nat
  deriving Repr, DecidableEq

/-- The entry stored by submit_price for a request: the reporter-supplied
price and timestamp together with the source and node id. -/
def entryOf (req : PriceRequest) : PriceEntry :=
  ⟨req.price, req.timestamp, req.source, req.node_id⟩

/-- AggregatorServiceImpl::submit_price: append the entry, trim the log to
100, refresh the liveness record of the sender at the server time, sweep inactive
nodes, then recompute the median and answer with it. -/
def submit_price (s : AggregatorState) (req : PriceRequest) (current_time : Nat) :
    AggregatorState × PriceResponse :=
  let prices2 := pushTrim s.prices (entryOf req)
  let nodes1 := insertNode s.active_nodes req.node_id current_time
  let nodes2 := cleanup_inactive_nodes nodes1 current_time
  let median := calculate_median_price prices2 current_time
  (⟨prices2, nodes2⟩,
   { success := true
     message := "Price received successfully"
     aggregated_price := median
     timestamp := current_time })

/-- The HealthResponse proto message. -/
structure HealthResponse where
  healthy : Bool
  timestamp : Nat
  active_nodes : Nat
  version : String
  deriving Repr, DecidableEq

/-- AggregatorServiceImpl::health_check: a read-only snapshot; the state is
returned unchanged (the handler takes only a read lock). -/
def health_check (s : AggregatorState) (current_time : Nat) :
    AggregatorState × HealthResponse :=
  (s,
   { healthy := true
     timestamp := current_time
     active_nodes := s.active_nodes.length
     version := "1.0.0" })

/-- The PriceDataPoint proto message. -/
structure PriceDataPoint where
  price : ℚ
  timestamp : Nat
  source : String
  node_id : String
  deriving Repr, DecidableEq

/-- Conversion of a stored entry to the wire data point. -/
def toDataPoint (p : PriceEntry) : PriceDataPoint :=
  ⟨p.price, p.timestamp, p.source, p.node_id⟩

/-- The GetPriceResponse proto message. -/
structure GetPriceResponse where
  success : Bool
  aggregated_price : ℚ
  data_points : Nat
  last_update : Nat
  recent_prices : List PriceDataPoint
  deriving Repr, DecidableEq

/-- AggregatorServiceImpl::get_aggregated_price: a read-only query answering
with the newest 10 entries (most recent first) and the median, defaulted to
the sentinel 0 when the median is none. -/
def get_aggregated_price (s : AggregatorState) (current_time : Nat) :
    AggregatorState × GetPriceResponse :=
  let recent := (s.prices.reverse.take 10).map toDataPoint
  let median := (calculate_median_price s.prices current_time).getD 0
  (s,
   { success := true
     aggregated_price := median
     data_points := recent.length
     last_update := current_time
     recent_prices := recent })

/-- The requests of the gRPC surface that touch the shared state. -/
inductive OracleRequest where
  | submitReq (req : PriceRequest)
  | healthReq (node_id : String)
  | getPriceReq
  deriving Repr, DecidableEq

/-- The state transition of one request handled at a given server time. -/
def stepRequest (s : AggregatorState) (rt : OracleRequest × Nat) : AggregatorState :=
  match rt.1 with
  | .submitReq r => (submit_price s r rt.2).1
  | .healthReq _ => (health_check s rt.2).1
  | .getPriceReq => (get_aggregated_price s rt.2).1

/-- Run a sequence of timed requests against the shared state. -/
def runRequests (s : AggregatorState) (reqs : List (OracleRequest × Nat)) : AggregatorState :=
  reqs.foldl stepRequest s

/-- A request is read-only when it is not a price submission. -/
def isReadOnly : OracleRequest → Bool
  | .submitReq _ => false
  | .healthReq _ => true
  | .getPriceReq => true

/-
The F64 model: the fragment of IEEE f64 semantics that validate_price and
the sort comparator of calculate_median_price depend on — NaN compares
false under every ordering comparison and makes partial_cmp return none.
-/

/-- An f64 value: NaN, the infinities, or a finite value (idealised as ℚ). -/
inductive F64 where
  | nan
  | posInf
  | negInf
  | fin (q : ℚ)
  deriving Repr, DecidableEq

/-- IEEE less-or-equal on f64: false whenever either side is NaN. -/
def fle : F64 → F64 → Bool
  | .nan, _ => false
  | _, .nan => false
  | .negInf, _ => true
  | _, .negInf => false
  | _, .posInf => true
  | .posInf, _ => false
  | .fin a, .fin b => a ≤ b

/-- IEEE strict less-than on f64: false whenever either side is NaN. -/
def flt : F64 → F64 → Bool
  | .nan, _ => false
  | _, .nan => false
  | .negInf, .negInf => false
  | .negInf, _ => true
  | _, .negInf => false
  | .posInf, _ => false
  | _, .posInf => true
  | .fin a, .fin b => a < b

/-- f64::partial_cmp: none exactly when either operand is NaN. -/
def pcmp (a b : F64) : Option Ordering :=
  if a = F64.nan ∨ b = F64.nan then none
  else if flt a b then some .lt
  else if flt b a then some .gt
  else some .eq

/-- IEEE addition on the F64 model (finite arithmetic idealised as exact). -/
def fadd : F64 → F64 → F64
  | .nan, _ => .nan
  | _, .nan => .nan
  | .posInf, .negInf => .nan
  | .negInf, .posInf => .nan
  | .posInf, _ => .posInf
  | _, .posInf => .posInf
  | .negInf, _ => .negInf
  | _, .negInf => .negInf
  | .fin a, .fin b => .fin (a + b)

/-- Halving on the F64 model. -/
def fdiv2 : F64 → F64
  | .nan => .nan
  | .posInf => .posInf
  | .negInf => .negInf
  | .fin a => .fin (a / 2)

/-- The outcome of BinanceClient::validate_price: ok is false exactly when
the function bails, and the two flags record the warning logs. -/
structure ValidationResult where
  ok : Bool
  warnedLow : Bool
  warnedHigh : Bool
  deriving Repr, DecidableEq

/-- BinanceClient::validate_price: bail on price <= 0.0, otherwise accept,
warning when price < 1000.0 or price > 1000000.0. -/
def validate_price (price : F64) : ValidationResult :=
  if fle price (F64.fin 0) then ⟨false, false, false⟩
  else ⟨true, flt price (F64.fin 1000), flt (F64.fin 1000000) price⟩

/-- A stored price entry whose price keeps the full f64 semantics. -/
structure PriceEntryF where
  price : F64
  timestamp : Nat
  source : String
  node_id : String
  deriving Repr, DecidableEq

/-- One insertion step of a sort driven by a fallible comparator: none
models the panic of partial_cmp(..).unwrap() on an incomparable pair. -/
def insertM (a : F64) : List F64 → Option (List F64)
  | [] => some [a]
  | b :: bs =>
    match pcmp a b with
    | none => none
    | some .gt => (insertM a bs).map (fun t => b :: t)
    | some _ => some (a :: b :: bs)

/-- Sorting with the fallible comparator; none models the sort panicking. -/
def sortM : List F64 → Option (List F64)
  | [] => some []
  | a :: rest => (sortM rest).bind (insertM a)

/-- calculate_median_price with the panic made explicit: the outer none is
the panic of the unwrap inside the sort comparator; some r is a normal
return of r. -/
def calculate_median_price_checked (prices : List PriceEntryF) (current_time : Nat) :
    Option (Option F64) :=
  let recent := (prices.filter (fun p => subU64 current_time p.timestamp < 60)).map
    (fun p => p.price)
  if recent.isEmpty then some none
  else
    match sortM recent with
    | none => none
    | some sorted =>
      let len := sorted.length
      if len % 2 = 0 then
        some (some (fdiv2 (fadd (sorted.getD (len / 2 - 1) F64.nan)
          (sorted.getD (len / 2) F64.nan))))
      else
        some (some (sorted.getD (len / 2) F64.nan))

/-
The ingestion client (src/binance.rs).
-/

/-- The observable trace of one call of fetch_btc_price_with_retry: how many
attempts ran, the list of backoff waits performed (in seconds, in order),
and the final result. -/
structure RetryTrace (E A : Type) where
  attempts : Nat
  waits : List Nat
  result : Except E A
  deriving Repr

/-- The retry loop of BinanceClient::fetch_btc_price_with_retry, with the
outcome of each attempt given by the environment. The loop for attempt in
1..=max_retries is driven by the count of attempts still allowed (the first
argument, initially max_retries), so that remaining = 0 after a failure is
exactly the attempt < max_retries test failing; the outer none models the
unreachable line after the loop (hit only when max_retries = 0). A failed
attempt n that is not the last waits 2 ^ (n - 1) seconds and continues. -/
def retryGo {E A : Type} (outcome : Nat → Except E A) :
    Nat → Nat → List Nat → Option (RetryTrace E A)
  | 0, _, _ => none
  | remaining + 1, attempt, waits =>
    match outcome attempt with
    | .ok a => some ⟨attempt, waits, .ok a⟩
    | .error e =>
      if remaining = 0 then some ⟨attempt, waits, .error e⟩
      else retryGo outcome remaining (attempt + 1) (waits ++ [2 ^ (attempt - 1)])

/-- BinanceClient::fetch_btc_price_with_retry at MAX_RETRIES = 3, starting
at attempt 1 having waited nothing. -/
def fetch_btc_price_with_retry {E A : Type} (outcome : Nat → Except E A) :
    Option (RetryTrace E A) :=
  retryGo outcome 3 1 []

/-- The as-u64 cast of a nonnegative-or-any f64 (idealised as ℚ): truncate
toward zero and saturate to the u64 range. -/
def f64AsU64 (q : ℚ) : Nat := min (max ⌊q⌋ 0).toNat (2 ^ 64 - 1)

/-- The PriceData record produced by a successful fetch. -/
structure PriceData where
  pair : String
  price : Nat
  timestamp : Nat
  volume : Option ℚ
  source : String
  deriving Repr, DecidableEq

/-- The tail of BinanceClient::fetch_btc_price_once after a close price has
been parsed: validate it, then build the record with price * 100 cast to
u64, the source name, and the fetch-completion time (not the bucket time).
none models the validation bail propagating as an error. -/
def fetch_btc_price_once_success (close_price : ℚ) (fetch_time : Nat) : Option PriceData :=
  if (validate_price (F64.fin close_price)).ok then
    some
      { pair := "BTC/USD"
        price := f64AsU64 (close_price * 100)
        timestamp := fetch_time
        volume := none
        source := "binance" }
  else none

/-
Helper lemmas.
-/

/-- On in-range operands with no underflow, the wrapping u64 subtraction is
the ordinary difference. -/
theorem subU64_eq_sub {a b : Nat} (hb : b ≤ a) (ha : a < 2 ^ 64) : subU64 a b = a - b := by
  unfold subU64
  have hb2 : b % 2 ^ 64 = b := Nat.mod_eq_of_lt (lt_of_le_of_lt hb ha)
  have h3 : a + (2 ^ 64 - b) = (a - b) + 2 ^ 64 := by omega
  rw [hb2, h3, Nat.add_mod_right, Nat.mod_eq_of_lt (by omega)]

/-- When every timestamp is at most the current time, the freshness filter
of the median computation is the ordinary age comparison. -/
theorem freshness_filter_eq (entries : List PriceEntry) (now : Nat)
    (hts : ∀ e ∈ entries, e.timestamp ≤ now) (hnow : now < 2 ^ 64) :
    entries.filter (fun e => subU64 now e.timestamp < 60)
      = entries.filter (fun e => now - e.timestamp < 60) := by
  apply List.filter_congr
  intro e he
  rw [subU64_eq_sub (hts e he) hnow]

/-- C1: For every list of submissions and every current time (timestamps not
in the future, times in u64 range), the consensus computation restricts to
entries with now - observed_at < 60 seconds; if no entry remains it returns
none; otherwise it sorts the remaining prices ascending and returns the
exact middle element when their count is odd, and the arithmetic mean of
the two middle elements when their count is even. -/
theorem c1_consensus_median (entries : List PriceEntry) (now : Nat)
    (hts : ∀ e ∈ entries, e.timestamp ≤ now) (hnow : now < 2 ^ 64) :
    (entries.filter (fun e => now - e.timestamp < 60) = [] →
        calculate_median_price entries now = none) ∧
    (entries.filter (fun e => now - e.timestamp < 60) ≠ [] →
        ∃ s : List ℚ,
          s.Perm ((entries.filter (fun e => now - e.timestamp < 60)).map (fun e => e.price)) ∧
          s.Sorted (fun a b => a ≤ b) ∧
          calculate_median_price entries now =
            some (if s.length % 2 = 0
              then (s.getD (s.length / 2 - 1) 0 + s.getD (s.length / 2) 0) / 2
              else s.getD (s.length / 2) 0)) := by
  have hfil := freshness_filter_eq entries now hts hnow
  constructor
  · intro hempty
    simp only [calculate_median_price, hfil, hempty]
    simp
  · intro hne
    refine ⟨((entries.filter (fun e => now - e.timestamp < 60)).map
        (fun e => e.price)).insertionSort (fun a b => a ≤ b), List.perm_insertionSort _ _,
      List.sorted_insertionSort _ _, ?_⟩
    have hne2 : ((entries.filter (fun e => now - e.timestamp < 60)).map
        (fun e : PriceEntry => e.price)).isEmpty = false := by
      simp [List.isEmpty_iff, hne]
    simp only [calculate_median_price, hfil, hne2, Bool.false_eq_true, if_false]
    split_ifs <;> rfl

/-- C1 witness: a single entry 60 seconds old is outside the freshness
window, so the consensus is none. -/
theorem c1_witness : calculate_median_price [⟨100, 40, "a", "n"⟩] 100 = none :=
  (c1_consensus_median [⟨100, 40, "a", "n"⟩] 100 (by decide) (by decide)).1 (by decide)

/-- C2 counterexample: the claim says every non-finite value (NaN, both
infinities) is rejected, but validate_price only bails on price <= 0.0,
and both NaN <= 0.0 and +inf <= 0.0 are false, so NaN and +infinity are
accepted. -/
theorem c2_counterexample :
    (validate_price F64.nan).ok = true ∧ (validate_price F64.posInf).ok = true := by
  decide

/-- C2 (amended): validation rejects exactly the values that compare <= 0
under IEEE semantics — zero, every negative finite value, and -infinity —
and accepts everything else: every finite value strictly greater than zero,
+infinity, and NaN. Accepted finite values below 1000 or above 1,000,000
are only flagged with a warning, never rejected; +infinity is flagged as
unusually high, and NaN is accepted without any warning. -/
theorem c2_validate_characterization :
    (∀ q : ℚ, (validate_price (F64.fin q)).ok = true ↔ 0 < q) ∧
    validate_price F64.nan = ⟨true, false, false⟩ ∧
    validate_price F64.posInf = ⟨true, false, true⟩ ∧
    (validate_price F64.negInf).ok = false ∧
    (validate_price (F64.fin 0)).ok = false ∧
    (∀ q : ℚ, 0 < q →
      ((validate_price (F64.fin q)).warnedLow = true ↔ q < 1000) ∧
      ((validate_price (F64.fin q)).warnedHigh = true ↔ 1000000 < q)) := by
  refine ⟨?_, by decide, by decide, by decide, by decide, ?_⟩
  · intro q
    by_cases h : q ≤ 0
    · have h2 : ¬ (0 < q) := not_lt.mpr h
      simp [validate_price, fle, h, h2]
    · have h2 : 0 < q := not_le.mp h
      simp [validate_price, fle, h, h2]
  · intro q hq
    have h : ¬ (q ≤ 0) := not_le.mpr hq
    constructor
    · simp [validate_price, fle, flt, h]
    · simp [validate_price, fle, flt, h]

/-- C2 witness: the everyday price 50000 is accepted. -/
theorem c2_witness : (validate_price (F64.fin 50000)).ok = true :=
  (c2_validate_characterization.1 50000).mpr (by norm_num)

/-- The trimmed log has the length of the appended log capped at 100. -/
theorem pushTrim_length (log : List PriceEntry) (e : PriceEntry) :
    (pushTrim log e).length = min (log.length + 1) 100 := by
  simp only [pushTrim]
  split_ifs with h
  · simp only [List.length_drop, List.length_append, List.length_cons, List.length_nil]
    simp only [List.length_append, List.length_cons, List.length_nil] at h
    omega
  · simp only [List.length_append, List.length_cons, List.length_nil] at h ⊢
    omega

/-- On a log already within capacity, the trim step keeps the suffix of the
appended log that starts where its length exceeds 100. -/
theorem pushTrim_eq_drop (log : List PriceEntry) (e : PriceEntry) (h : log.length ≤ 100) :
    pushTrim log e = (log ++ [e]).drop ((log.length + 1) - 100) := by
  simp only [pushTrim]
  split_ifs with hlen
  · simp only [List.length_append, List.length_cons, List.length_nil]
  · simp only [List.length_append, List.length_cons, List.length_nil] at hlen
    have h0 : log.length + 1 - 100 = 0 := by omega
    rw [h0, List.drop_zero]

/-- Folding the push-then-trim step over a stream of entries keeps exactly
the suffix of the whole appended history that fits in 100 entries. -/
theorem foldl_pushTrim (es : List PriceEntry) :
    ∀ log : List PriceEntry, log.length ≤ 100 →
      es.foldl pushTrim log = (log ++ es).drop ((log.length + es.length) - 100) := by
  induction es with
  | nil =>
    intro log h
    simp only [List.foldl_nil, List.append_nil, List.length_nil, Nat.add_zero]
    rw [Nat.sub_eq_zero_of_le h, List.drop_zero]
  | cons e es ih =>
    intro log h
    rw [List.foldl_cons]
    have h2 : (pushTrim log e).length ≤ 100 := by rw [pushTrim_length]; omega
    rw [ih _ h2, pushTrim_eq_drop log e h]
    rw [← List.drop_append_of_le_length (by simp; omega)]
    rw [List.drop_drop]
    have hshape : (log ++ [e]) ++ es = log ++ e :: es := by simp
    rw [hshape]
    congr 1
    simp only [List.length_drop, List.length_append, List.length_cons, List.length_nil]
    omega

/-- Running a batch of submissions changes the log by folding the
push-then-trim step over the corresponding entries. -/
theorem runRequests_submit_prices (reqs : List (PriceRequest × Nat)) :
    ∀ s : AggregatorState,
      (runRequests s (reqs.map (fun rt => (OracleRequest.submitReq rt.1, rt.2)))).prices
        = reqs.foldl (fun l rt => pushTrim l (entryOf rt.1)) s.prices := by
  induction reqs with
  | nil => intro s; rfl
  | cons r rs ih =>
    intro s
    simp only [List.map_cons, runRequests, List.foldl_cons] at *
    exact ih ⟨pushTrim s.prices (entryOf r.1), _⟩

/-- C3: Starting from the empty state, after any sequence of submit
operations the log holds at most 100 entries, and the retained entries are
exactly the most recently appended ones (all of them when at most 100
arrived, the last 100 otherwise), in their original arrival order. -/
theorem c3_log_capacity (reqs : List (PriceRequest × Nat)) :
    (runRequests ⟨[], []⟩ (reqs.map (fun rt => (OracleRequest.submitReq rt.1, rt.2)))).prices
      = (reqs.map (fun rt => entryOf rt.1)).drop (reqs.length - 100) ∧
    (runRequests ⟨[], []⟩ (reqs.map (fun rt => (OracleRequest.submitReq rt.1, rt.2)))).prices.length
      ≤ 100 := by
  have h1 := runRequests_submit_prices reqs ⟨[], []⟩
  have h2 : reqs.foldl (fun l rt => pushTrim l (entryOf rt.1)) ([] : List PriceEntry)
      = (reqs.map (fun rt => entryOf rt.1)).foldl pushTrim [] :=
    (List.foldl_map _ _ _ _).symm
  have h3 := foldl_pushTrim (reqs.map (fun rt => entryOf rt.1)) [] (by simp)
  constructor
  · rw [h1, h2, h3]
    simp
  · rw [h1, h2, h3]
    simp only [List.length_drop, List.nil_append, List.length_map, List.length_nil,
      Nat.zero_add]
    omega

/-- C4: For every liveness map (with last-seen times not in the future and
the current time in u64 range) the sweep keeps a record exactly when its
age now - last_seen is under 120 seconds, leaves the surviving records
unchanged and in order (the result is a sublist of the input), and a second
sweep at the same time removes nothing further. -/
theorem c4_sweep (m : List (String × Nat)) (now : Nat)
    (hv : ∀ kv ∈ m, kv.2 ≤ now) (hn : now < 2 ^ 64) :
    (∀ kv ∈ m, (kv ∈ cleanup_inactive_nodes m now ↔ now - kv.2 < 120)) ∧
    (cleanup_inactive_nodes m now).Sublist m ∧
    cleanup_inactive_nodes m now = cleanup_inactive_nodes (cleanup_inactive_nodes m now) now := by
  have hfil : cleanup_inactive_nodes m now = m.filter (fun kv => now - kv.2 < 120) := by
    unfold cleanup_inactive_nodes
    apply List.filter_congr
    intro kv hkv
    rw [subU64_eq_sub (hv kv hkv) hn]
  refine ⟨?_, ?_, ?_⟩
  · intro kv hkv
    rw [hfil]
    simp [List.mem_filter, hkv]
  · rw [hfil]
    exact List.filter_sublist m
  · unfold cleanup_inactive_nodes
    rw [List.filter_filter]
    apply (List.filter_congr ?_).symm
    intro kv _
    simp

/-- C4 witness: at time 150, the record last seen at 100 survives the sweep. -/
theorem c4_witness : ("b", (100 : Nat)) ∈ cleanup_inactive_nodes [("a", 0), ("b", 100)] 150 :=
  ((c4_sweep [("a", 0), ("b", 100)] 150 (by decide) (by decide)).1 ("b", 100)
    (by decide)).mpr (by decide)

/-- C5: For every environment of attempt outcomes, the ingestion fetch makes
at most 3 attempts and the wait performed after failed attempt n (for
n < 3) is exactly 2 ^ (n - 1) seconds, so the total wait before finishing
at attempt n is 2 ^ (n - 1) - 1 seconds; if the first two attempts fail and
the third succeeds the waits are [1, 2] (total 3 seconds) over exactly 3
attempts; and if all three attempts fail the error of the third attempt is
returned with no further retry. -/
theorem c5_retry_behaviour {E A : Type} (outcome : Nat → Except E A) :
    (∃ t : RetryTrace E A, fetch_btc_price_with_retry outcome = some t ∧
        t.attempts ≤ 3 ∧
        t.waits = (List.range (t.attempts - 1)).map (fun k => 2 ^ k) ∧
        t.waits.sum = 2 ^ (t.attempts - 1) - 1) ∧
    (∀ (e1 e2 : E) (a : A), outcome 1 = .error e1 → outcome 2 = .error e2 →
        outcome 3 = .ok a →
        fetch_btc_price_with_retry outcome = some ⟨3, [1, 2], .ok a⟩) ∧
    (∀ e1 e2 e3 : E, outcome 1 = .error e1 → outcome 2 = .error e2 →
        outcome 3 = .error e3 →
        fetch_btc_price_with_retry outcome = some ⟨3, [1, 2], .error e3⟩) := by
  refine ⟨?_, ?_, ?_⟩
  · cases h1 : outcome 1 with
    | ok a =>
      exact ⟨⟨1, [], .ok a⟩, by simp [fetch_btc_price_with_retry, retryGo, h1],
        by norm_num, by simp, by simp⟩
    | error e1 =>
      cases h2 : outcome 2 with
      | ok a =>
        exact ⟨⟨2, [1], .ok a⟩, by simp [fetch_btc_price_with_retry, retryGo, h1, h2],
          by norm_num, by rfl, by rfl⟩
      | error e2 =>
        cases h3 : outcome 3 with
        | ok a =>
          exact ⟨⟨3, [1, 2], .ok a⟩,
            by simp [fetch_btc_price_with_retry, retryGo, h1, h2, h3],
            by norm_num, by rfl, by rfl⟩
        | error e3 =>
          exact ⟨⟨3, [1, 2], .error e3⟩,
            by simp [fetch_btc_price_with_retry, retryGo, h1, h2, h3],
            by norm_num, by rfl, by rfl⟩
  · intro e1 e2 a h1 h2 h3
    simp [fetch_btc_price_with_retry, retryGo, h1, h2, h3]
  · intro e1 e2 e3 h1 h2 h3
    simp [fetch_btc_price_with_retry, retryGo, h1, h2, h3]

/-- C5 witness: with the first two attempts failing and the third
succeeding, the fetch makes 3 attempts, waits 1 then 2 seconds, and
returns the value of the third attempt. -/
theorem c5_witness :
    fetch_btc_price_with_retry
        (fun n => if n = 3 then Except.ok (42 : ℤ) else Except.error ("net"))
      = some ⟨3, [1, 2], Except.ok 42⟩ :=
  (c5_retry_behaviour _).2.1 ("net") ("net") 42 rfl rfl rfl

/-- C6 counterexample: the claim says the returned integer minor-unit price
is price * 100 rounded to the nearest integer, but the cast truncates: for
the validator-accepted close price 100.007, price * 100 = 10000.7, the code
returns 10000 while the nearest integer is 10001. -/
theorem c6_counterexample :
    (validate_price (F64.fin (100007 / 1000))).ok = true ∧
    (fetch_btc_price_once_success (100007 / 1000) 7).map PriceData.price = some 10000 ∧
    round ((100007 : ℚ) / 1000 * 100) = 10001 := by
  refine ⟨?_, ?_, by norm_num [round_eq]⟩
  · have h : ¬ ((100007 : ℚ) / 1000 ≤ 0) := by norm_num
    simp [validate_price, fle, h]
  · norm_num [fetch_btc_price_once_success, validate_price, fle, flt, f64AsU64]
    decide

/-- C6 (amended): for every validator-accepted close price (and fetch
within u64 range), the returned record carries the price converted to
integer minor units as price * 100 truncated toward zero — the floor of the
nonnegative product, so the stored value is within one below the exact
product and never above it — together with the source name "binance" and a
timestamp equal to the fetch-completion time rather than the time of the
requested bucket. -/
theorem c6_truncation (close_price : ℚ) (fetch_time : Nat)
    (h0 : 0 < close_price) (hb : close_price * 100 < 2 ^ 64) :
    ∃ pd : PriceData,
      fetch_btc_price_once_success close_price fetch_time = some pd ∧
      pd.price = ⌊close_price * 100⌋₊ ∧
      (pd.price : ℚ) ≤ close_price * 100 ∧
      close_price * 100 < (pd.price : ℚ) + 1 ∧
      pd.source = "binance" ∧
      pd.timestamp = fetch_time := by
  have hok : (validate_price (F64.fin close_price)).ok = true := by
    have h : ¬ (close_price ≤ 0) := not_le.mpr h0
    simp [validate_price, fle, h]
  have hprod : (0 : ℚ) ≤ close_price * 100 := by positivity
  have hcast : f64AsU64 (close_price * 100) = ⌊close_price * 100⌋₊ := by
    unfold f64AsU64
    have hmax : max ⌊close_price * 100⌋ 0 = ⌊close_price * 100⌋ :=
      max_eq_left (Int.floor_nonneg.mpr hprod)
    rw [hmax, Int.floor_toNat]
    have hlt : (⌊close_price * 100⌋₊ : ℚ) < 2 ^ 64 :=
      lt_of_le_of_lt (Nat.floor_le hprod) hb
    have hle : ⌊close_price * 100⌋₊ ≤ 2 ^ 64 - 1 := by
      have : (⌊close_price * 100⌋₊ : ℚ) < ((2 ^ 64 : Nat) : ℚ) := by
        push_cast
        exact hlt
      have h2 : ⌊close_price * 100⌋₊ < 2 ^ 64 := by exact_mod_cast this
      omega
    exact min_eq_left hle
  refine ⟨⟨"BTC/USD", ⌊close_price * 100⌋₊, fetch_time, none, "binance"⟩, ?_, rfl, ?_, ?_,
    rfl, rfl⟩
  · simp [fetch_btc_price_once_success, hok, hcast]
  · exact Nat.floor_le hprod
  · exact Nat.lt_floor_add_one (close_price * 100)

/-- C6 witness: the close price 50000 yields exactly 5000000 cents. -/
theorem c6_witness :
    (fetch_btc_price_once_success 50000 9).map PriceData.price = some 5000000 := by
  obtain ⟨pd, hpd, hprice, -, -, -, -⟩ :=
    c6_truncation 50000 9 (by norm_num) (by norm_num)
  rw [hpd]
  simp only [Option.map_some']
  rw [hprice]
  norm_num

/-- C7: GetAggregatedPrice answers with the consensus value whenever the
median computation produces one and with the sentinel 0 (an explicit value,
not an error and not an absent field) when it produces none, together with
at most 10 submissions, namely the newest stored entries in
most-recent-first order. -/
theorem c7_get_aggregated (s : AggregatorState) (now : Nat) :
    (calculate_median_price s.prices now = none →
        ((get_aggregated_price s now).2).aggregated_price = 0) ∧
    (∀ v : ℚ, calculate_median_price s.prices now = some v →
        ((get_aggregated_price s now).2).aggregated_price = v) ∧
    ((get_aggregated_price s now).2).recent_prices.length ≤ 10 ∧
    ((get_aggregated_price s now).2).recent_prices
      = ((s.prices.drop (s.prices.length - 10)).map toDataPoint).reverse := by
  refine ⟨?_, ?_, ?_, ?_⟩
  · intro h
    simp [get_aggregated_price, h]
  · intro v h
    simp [get_aggregated_price, h]
  · simp only [get_aggregated_price, List.length_map, List.length_take,
      List.length_reverse]
    omega
  · simp only [get_aggregated_price]
    rw [List.take_reverse, List.map_reverse]

/-- C7 witness: on the empty state the response carries the sentinel 0. -/
theorem c7_witness : ((get_aggregated_price ⟨[], []⟩ 0).2).aggregated_price = 0 :=
  (c7_get_aggregated ⟨[], []⟩ 0).1 rfl

/-- C8: The read-only operations (health check and aggregated-price query,
the latter containing the consensus recomputation and the recent-price
query) never mutate the submission log or the liveness map: for every
sequence of such requests with no intervening submit, the final state — in
particular the log and the set of live reporter records — equals the
initial state. -/
theorem c8_reads_are_pure (s : AggregatorState) (reqs : List (OracleRequest × Nat))
    (h : ∀ rt ∈ reqs, isReadOnly rt.1 = true) :
    runRequests s reqs = s ∧
    (runRequests s reqs).prices = s.prices ∧
    (runRequests s reqs).active_nodes = s.active_nodes := by
  have hmain : ∀ (rs : List (OracleRequest × Nat)) (s2 : AggregatorState),
      (∀ rt ∈ rs, isReadOnly rt.1 = true) → runRequests s2 rs = s2 := by
    intro rs
    induction rs with
    | nil => intro s2 _; rfl
    | cons rt rts ih =>
      intro s2 hh
      have h1 : isReadOnly rt.1 = true := hh rt (List.mem_cons_self _ _)
      have hstep : stepRequest s2 rt = s2 := by
        cases hr : rt.1 with
        | submitReq r => rw [hr] at h1; simp [isReadOnly] at h1
        | healthReq n => simp [stepRequest, hr, health_check]
        | getPriceReq => simp [stepRequest, hr, get_aggregated_price]
      have hcons : runRequests s2 (rt :: rts) = runRequests (stepRequest s2 rt) rts := rfl
      rw [hcons, hstep]
      exact ih s2 (fun x hx => hh x (List.mem_cons_of_mem _ hx))
  have h0 := hmain reqs s h
  exact ⟨h0, by rw [h0], by rw [h0]⟩

/-- C8 witness: a health check followed by a price query leaves a concrete
state untouched. -/
theorem c8_witness :
    runRequests ⟨[⟨1, 2, "s", "n"⟩], [("n", 2)]⟩
        [(OracleRequest.healthReq ("n"), 5), (OracleRequest.getPriceReq, 6)]
      = ⟨[⟨1, 2, "s", "n"⟩], [("n", 2)]⟩ :=
  (c8_reads_are_pure _ _ (by decide)).1

/-- A partial comparison of two non-NaN values always succeeds. -/
theorem pcmp_isSome {a b : F64} (ha : a ≠ F64.nan) (hb : b ≠ F64.nan) :
    (pcmp a b).isSome = true := by
  unfold pcmp
  rw [if_neg (by simp [ha, hb])]
  split_ifs <;> rfl

/-- Inserting a non-NaN value into a NaN-free list never panics, and the
result draws its members from the inserted value and the list. -/
theorem insertM_total (a : F64) (ha : a ≠ F64.nan) :
    ∀ l : List F64, (∀ x ∈ l, x ≠ F64.nan) →
      ∃ r, insertM a l = some r ∧ ∀ x ∈ r, x ∈ a :: l := by
  intro l
  induction l with
  | nil => intro _; exact ⟨[a], rfl, by simp⟩
  | cons b bs ih =>
    intro hl
    have hb : b ≠ F64.nan := hl b (List.mem_cons_self _ _)
    have hbs : ∀ x ∈ bs, x ≠ F64.nan := fun x hx => hl x (List.mem_cons_of_mem _ hx)
    obtain ⟨r, hr, hmem⟩ := ih hbs
    have hp : (pcmp a b).isSome = true := pcmp_isSome ha hb
    cases ho : pcmp a b with
    | none => rw [ho] at hp; simp at hp
    | some o =>
      cases o with
      | gt =>
        refine ⟨b :: r, by simp [insertM, ho, hr], ?_⟩
        intro x hx
        rcases List.mem_cons.mp hx with h2 | h2
        · subst h2; simp
        · rcases List.mem_cons.mp (hmem x h2) with h3 | h3
          · subst h3; simp
          · simp [List.mem_cons, h3]
      | lt => exact ⟨a :: b :: bs, by simp [insertM, ho], fun x hx => hx⟩
      | eq => exact ⟨a :: b :: bs, by simp [insertM, ho], fun x hx => hx⟩

/-- Sorting a NaN-free list with the fallible comparator never panics, and
the result draws its members from the list. -/
theorem sortM_total :
    ∀ l : List F64, (∀ x ∈ l, x ≠ F64.nan) →
      ∃ r, sortM l = some r ∧ ∀ x ∈ r, x ∈ l := by
  intro l
  induction l with
  | nil => intro _; exact ⟨[], rfl, by simp⟩
  | cons a rest ih =>
    intro hl
    have ha : a ≠ F64.nan := hl a (List.mem_cons_self _ _)
    have hrest : ∀ x ∈ rest, x ≠ F64.nan := fun x hx => hl x (List.mem_cons_of_mem _ hx)
    obtain ⟨r1, hr1, hmem1⟩ := ih hrest
    have hr1nan : ∀ x ∈ r1, x ≠ F64.nan := fun x hx => hrest x (hmem1 x hx)
    obtain ⟨r2, hr2, hmem2⟩ := insertM_total a ha r1 hr1nan
    refine ⟨r2, by simp [sortM, hr1, hr2], ?_⟩
    intro x hx
    rcases List.mem_cons.mp (hmem2 x hx) with h2 | h2
    · subst h2; simp
    · exact List.mem_cons_of_mem _ (hmem1 x h2)

/-- C9: The median computation is total when every price inside the
freshness window is comparable (non-NaN); with a NaN price inside the
window it panics (the unwrap of the partial comparison in the sort
comparator), as on the concrete two-entry input below; and the validator
does not enforce the precondition, since it accepts NaN. -/
theorem c9_nan_panic :
    (∀ (entries : List PriceEntryF) (now : Nat),
        (∀ e ∈ entries, subU64 now e.timestamp < 60 → e.price ≠ F64.nan) →
        (calculate_median_price_checked entries now).isSome = true) ∧
    calculate_median_price_checked
        [⟨F64.nan, 0, "x", "n1"⟩, ⟨F64.fin 1, 0, "x", "n2"⟩] 0 = none ∧
    (validate_price F64.nan).ok = true := by
  refine ⟨?_, by decide, by decide⟩
  intro entries now h
  have hnan : ∀ x ∈ (entries.filter (fun p => subU64 now p.timestamp < 60)).map
      (fun p : PriceEntryF => p.price), x ≠ F64.nan := by
    intro x hx
    obtain ⟨p, hp, rfl⟩ := List.mem_map.mp hx
    have hp2 := List.mem_filter.mp hp
    exact h p hp2.1 (by simpa using hp2.2)
  obtain ⟨r, hr, -⟩ := sortM_total _ hnan
  by_cases hemp : ((entries.filter (fun p => subU64 now p.timestamp < 60)).map
      (fun p : PriceEntryF => p.price)).isEmpty
  · simp [calculate_median_price_checked, hemp]
  · simp only [calculate_median_price_checked, hemp, Bool.false_eq_true, if_false, hr]
    split_ifs <;> rfl

/-- C9 witness: a single fresh comparable price is computed without panic. -/
theorem c9_witness :
    (calculate_median_price_checked [⟨F64.fin 5, 0, "x", "n"⟩] 0).isSome = true :=
  c9_nan_panic.1 [⟨F64.fin 5, 0, "x", "n"⟩] 0 (by decide)

/-- C10: The ages in the freshness filter and the liveness sweep are u64
subtractions current_time - timestamp, well defined (equal to the ordinary
difference) exactly under the precondition that the stored timestamp is at
most the current time; on a future timestamp the checked (debug-build)
subtraction panics, and the wrapping (release-build) subtraction produces a
huge age, silently excluding the entry from consensus and sweeping the
record out of the liveness map. -/
theorem c10_u64_underflow :
    (∀ now ts : Nat, ts ≤ now → now < 2 ^ 64 → subU64 now ts = now - ts) ∧
    checkedSubU64 1000 1001 = none ∧
    subU64 1000 1001 = 2 ^ 64 - 1 ∧
    calculate_median_price [⟨42, 1001, "f", "n"⟩] 1000 = none ∧
    cleanup_inactive_nodes [("n", 1001)] 1000 = [] :=
  ⟨fun _ _ h1 h2 => subU64_eq_sub h1 h2, by decide, by decide, by decide, by decide⟩

/-- C10 witness: a 40-second-old timestamp yields the ordinary age. -/
theorem c10_witness : subU64 100 40 = 100 - 40 :=
  c10_u64_underflow.1 100 40 (by decide) (by decide)
